import Mathlib

/-!
Shallow embedding of `rust-n-tree` (`src/lib.rs`): an n-ary spatial index
(`NTree`) over an abstract `Region` capability, with `new`, `insert`
(including the overflow-triggered `split_and_insert`), `contains`, `nearby`
and the lazy `range_query` iterator.

Modelling conventions:
* The Rust trait `Region<P>` becomes an explicit record `RegionOps R P` of the
  three capability operations.
* `Vec<P>` becomes `List P`; the `u8` field `bucket_limit` becomes a `Nat`
  intended to be `< 256`; the Rust comparison `points.len() as u8 !=
  *bucket_limit` is embedded as `points.length % 256 ≠ bucket_limit`,
  making the `u8` cast explicit.
* `insert` mutates in place and can genuinely diverge (a full bucket whose
  region splits into sub-regions that keep routing all points into one child
  recurses forever, e.g. with bucket limit 0), so the embedded `insert` is
  indexed by a fuel bounding the recursion depth and threads the resulting
  tree explicitly.  `InsResult.panicked` marks the `unreachable!()` arm of
  `split_and_insert`; `InsResult.outOfFuel` marks exhausted fuel.
-/

/-- The `Region<P>` trait: `contains`, `split` and `overlaps`, as a record of
operations (the Clone bound is implicit: Lean values are freely duplicable). -/
structure RegionOps (R P : Type) where
  contains : R → P → Bool
  split : R → List R
  overlaps : R → R → Bool

/-- The `NTree<R, P>` enum: a `Bucket` leaf holding points, or a `Branch`
with a list of subtrees. -/
inductive NTree (R P : Type) where
  | Bucket (region : R) (points : List P) (bucket_limit : Nat)
  | Branch (region : R) (subregions : List (NTree R P))

namespace NTree

variable {R P : Type}

/-- The region owned by a node (both variants store one). -/
def region : NTree R P → R
  | .Bucket r _ _ => r
  | .Branch r _ => r

/-- Is this node a `Branch`? -/
def isBranch : NTree R P → Bool
  | .Bucket _ _ _ => false
  | .Branch _ _ => true

/-- `NTree::new`: split the region and build a `Branch` of empty `Bucket`s,
one per sub-region, each carrying the bucket limit `size`. -/
def new (ops : RegionOps R P) (region : R) (size : Nat) : NTree R P :=
  .Branch region ((ops.split region).map (fun r => .Bucket r [] size))

/-- `NTree::contains`: does the node's own region contain the point? -/
def contains (ops : RegionOps R P) : NTree R P → P → Bool
  | .Bucket region _ _, point => ops.contains region point
  | .Branch region _, point => ops.contains region point

theorem contains_eq_region (ops : RegionOps R P) (t : NTree R P) (p : P) :
    contains ops t p = ops.contains t.region p := by
  cases t <;> rfl

end NTree

/-- Result of the embedded `insert`: the updated tree and the returned bool,
or the `unreachable!()` panic, or fuel exhaustion (standing for the unbounded
split recursion the source does not guard against). -/
inductive InsResult (R P : Type) where
  | ok (t : NTree R P) (b : Bool)
  | panicked
  | outOfFuel

/-- Result of the embedded `split_and_insert` (which returns `()` in Rust and
mutates in place): the updated tree, a panic, or fuel exhaustion. -/
inductive SplitResult (R P : Type) where
  | ok (t : NTree R P)
  | panicked
  | outOfFuel

/-- Result of the `subregions.mut_iter().find(..)` + recursive insert step in
the `Branch` arm of `insert`: the updated child list with the recursive call's
bool, or no child claiming the point, or a propagated panic / fuel exhaustion. -/
inductive ChildrenResult (R P : Type) where
  | ok (subs : List (NTree R P)) (b : Bool)
  | nochild
  | panicked
  | outOfFuel

variable {R P : Type}

/-- The `Branch` arm's `subregions.mut_iter().find(|r| r.contains(&point))`
followed by `subregion.insert(point)`: scan the children in order, recurse
(via `f`, the one-level-less-fuel `insert`) into the first child whose region
contains the point.  `f` stands for the recursive call. -/
def insertChildrenAux (ops : RegionOps R P) (f : NTree R P → P → InsResult R P) :
    List (NTree R P) → P → ChildrenResult R P
  | [], _ => .nochild
  | t :: ts, point =>
    if NTree.contains ops t point then
      match f t point with
      | .ok t' b => .ok (t' :: ts) b
      | .panicked => .panicked
      | .outOfFuel => .outOfFuel
    else
      match insertChildrenAux ops f ts point with
      | .ok ts' b => .ok (t :: ts') b
      | .nochild => .nochild
      | .panicked => .panicked
      | .outOfFuel => .outOfFuel

/-- The reinsertion loop of `split_and_insert` (`for old_point in
old_points.move_iter() { bucket.insert(old_point); }`): insert each point in
order, discarding the returned bools exactly as the source does. -/
def insertAllAux (ops : RegionOps R P) (f : NTree R P → P → InsResult R P) :
    NTree R P → List P → SplitResult R P
  | t, [] => .ok t
  | t, p :: ps =>
    match f t p with
    | .ok t' _ => insertAllAux ops f t' ps
    | .panicked => .panicked
    | .outOfFuel => .outOfFuel

/-- `split_and_insert`: take the full bucket's region, points and limit,
replace it with `NTree::new` on the same region, reinsert the old points, then
insert the new point (its bool is discarded; the caller returns `true`).
The `Branch` arm is Rust's `unreachable!()`. -/
def split_and_insertAux (ops : RegionOps R P) (f : NTree R P → P → InsResult R P) :
    NTree R P → P → SplitResult R P
  | .Bucket region points bucket_limit, point =>
    match insertAllAux ops f (NTree.new ops region bucket_limit) points with
    | .ok t1 =>
      match f t1 point with
      | .ok t2 _ => .ok t2
      | .panicked => .panicked
      | .outOfFuel => .outOfFuel
    | .panicked => .panicked
    | .outOfFuel => .outOfFuel
  | .Branch _ _, _ => .panicked

/-- `NTree::insert`, indexed by fuel (bounding the depth of the
split-and-reinsert recursion, which the source does not bound).  A `Bucket`
whose region contains the point appends it when `points.len() as u8 !=
*bucket_limit`, otherwise falls through to `split_and_insert` and returns
`true`; a `Branch` whose region contains the point recurses into the first
child that claims it; everything else returns `false` with no change. -/
def NTree.insert (ops : RegionOps R P) : Nat → NTree R P → P → InsResult R P
  | 0, _, _ => .outOfFuel
  | fuel + 1, .Bucket region points bucket_limit, point =>
    if ops.contains region point then
      if points.length % 256 ≠ bucket_limit then
        .ok (.Bucket region (points ++ [point]) bucket_limit) true
      else
        match split_and_insertAux ops (NTree.insert ops fuel) (.Bucket region points bucket_limit) point with
        | .ok t => .ok t true
        | .panicked => .panicked
        | .outOfFuel => .outOfFuel
    else
      .ok (.Bucket region points bucket_limit) false
  | fuel + 1, .Branch region subregions, point =>
    if ops.contains region point then
      match insertChildrenAux ops (NTree.insert ops fuel) subregions point with
      | .ok subs' b => .ok (.Branch region subs') b
      | .nochild => .ok (.Branch region subregions) false
      | .panicked => .panicked
      | .outOfFuel => .outOfFuel
    else
      .ok (.Branch region subregions) false

/-- Trees reachable through the public API: `new` with bucket limit `size`,
followed by any sequence of successful `insert` calls (with any fuel). -/
inductive Reachable (ops : RegionOps R P) (size : Nat) : NTree R P → Prop where
  | base (region : R) : Reachable ops size (NTree.new ops region size)
  | step {t t' : NTree R P} {p : P} {b : Bool} (fuel : Nat) :
      Reachable ops size t → NTree.insert ops fuel t p = .ok t' b → Reachable ops size t'

mutual

/-- All points stored in a tree, depth-first, left-to-right over children,
bucket points in insertion order. -/
def allPoints : NTree R P → List P
  | .Bucket _ points _ => points
  | .Branch _ subs => allPointsList subs

/-- `allPoints` concatenated over a list of trees, left to right. -/
def allPointsList : List (NTree R P) → List P
  | [] => []
  | t :: ts => allPoints t ++ allPointsList ts

end

mutual

/-- Structural invariant of trees reachable through the public API: bucket
points lie in the bucket's region, bucket occupancy is within the (`u8`)
limit, and a branch's children carry exactly the regions `split` produced,
in order. -/
def wf (ops : RegionOps R P) : NTree R P → Prop
  | .Bucket region points bucket_limit =>
    (∀ q ∈ points, ops.contains region q = true) ∧
      points.length ≤ bucket_limit ∧ bucket_limit ≤ 255
  | .Branch region subs =>
    subs.map NTree.region = ops.split region ∧ wfList ops subs

/-- `wf` for every tree in a list. -/
def wfList (ops : RegionOps R P) : List (NTree R P) → Prop
  | [] => True
  | t :: ts => wf ops t ∧ wfList ops ts

end

theorem wfList_iff (ops : RegionOps R P) (ts : List (NTree R P)) :
    wfList ops ts ↔ ∀ t ∈ ts, wf ops t := by
  induction ts with
  | nil => simp [wfList]
  | cons t ts ih => simp [wfList, ih]

mutual

/-- Every bucket in the tree carries bucket limit `n` (arity stability: the
limit is inherited unchanged by every bucket created during splits). -/
def limitsAre (n : Nat) : NTree R P → Prop
  | .Bucket _ _ bucket_limit => bucket_limit = n
  | .Branch _ subs => limitsAreList n subs

/-- `limitsAre` for every tree in a list. -/
def limitsAreList (n : Nat) : List (NTree R P) → Prop
  | [] => True
  | t :: ts => limitsAre n t ∧ limitsAreList n ts

end

theorem limitsAreList_iff (n : Nat) (ts : List (NTree R P)) :
    limitsAreList n ts ↔ ∀ t ∈ ts, limitsAre n t := by
  induction ts with
  | nil => simp [limitsAreList]
  | cons t ts ih => simp [limitsAreList, ih]

mutual

/-- Decidable capacity invariant: every bucket node stores at most its
`bucket_limit` points. -/
def capacityOk : NTree R P → Bool
  | .Bucket _ points bucket_limit => points.length ≤ bucket_limit
  | .Branch _ subs => capacityOkList subs

/-- `capacityOk` over a list of trees. -/
def capacityOkList : List (NTree R P) → Bool
  | [] => true
  | t :: ts => capacityOk t && capacityOkList ts

end

mutual

/-- `NTree::nearby`: at a `Bucket` whose region contains the point return the
full point list; at a `Branch` whose region contains the point, look for the
first child whose region contains it (`subregions.iter().find(|r|
r.contains(point))`) and recurse (`and_then`); otherwise `None`. -/
def nearby (ops : RegionOps R P) : NTree R P → P → Option (List P)
  | .Bucket region points _, point =>
    if ops.contains region point then some points else none
  | .Branch region subs, point =>
    if ops.contains region point then nearbyFind ops subs point else none

/-- The `find` + `and_then` step of `nearby`: first child whose region
contains the point, then recurse into it (a later child is never tried). -/
def nearbyFind (ops : RegionOps R P) : List (NTree R P) → P → Option (List P)
  | [], _ => none
  | t :: ts, point =>
    if NTree.contains ops t point then nearby ops t point else nearbyFind ops ts point

end

mutual

/-- Size measure of a node, used only for the termination of the range-query
stepper: a bucket weighs its point count plus one, a branch weighs its
children plus two. -/
def nodeSize : NTree R P → Nat
  | .Bucket _ points _ => points.length + 1
  | .Branch _ subs => nodeListSize subs + 2

/-- Sum of `nodeSize` over a list of trees. -/
def nodeListSize : List (NTree R P) → Nat
  | [] => 0
  | t :: ts => nodeSize t + nodeListSize ts

end

/-- Measure of the iterator stack: total node size plus one per stack level. -/
def stackSize : List (List (NTree R P)) → Nat
  | [] => 0
  | ci :: s => nodeListSize ci + 1 + stackSize s

/-- The `RangeQuery` iterator state: the query region, the remaining points of
the currently examined bucket (`self.points`), and the stack of iterators over
the remaining children at each ancestor level (`self.stack`, top first). -/
structure RangeQuery (R P : Type) where
  query : R
  points : List P
  stack : List (List (NTree R P))

/-- `NTree::range_query`: an iterator starting with no current points and the
one-element slice `[self]` as the only stack entry. -/
def NTree.range_query (t : NTree R P) (query : R) : RangeQuery R P :=
  ⟨query, [], [[t]]⟩

/-- One call of `RangeQuery::next` on state components: drain the current
point cursor, yielding the first point the query contains; when it is
exhausted, pop the stack (`'region_search`) and scan the popped children
cursor (`'children`): a bucket overlapping the query installs its points as
the current cursor and pushes the remaining siblings back; a branch
overlapping the query pushes the remaining siblings and continues with its
children; non-overlapping nodes are skipped.  The Rust local `children_iter`
is represented as the head of the stack. -/
def qnext (ops : RegionOps R P) (query : R) :
    List P → List (List (NTree R P)) → Option (P × RangeQuery R P)
  | p :: rest, stack =>
    if ops.contains query p then some (p, ⟨query, rest, stack⟩)
    else qnext ops query rest stack
  | [], [] => none
  | [], [] :: stack => qnext ops query [] stack
  | [], (.Bucket region points _ :: rest) :: stack =>
    if ops.overlaps region query then qnext ops query points (rest :: stack)
    else qnext ops query [] (rest :: stack)
  | [], (.Branch region subs :: rest) :: stack =>
    if ops.overlaps region query then qnext ops query [] (subs :: rest :: stack)
    else qnext ops query [] (rest :: stack)
termination_by pts stack => pts.length + stackSize stack
decreasing_by
  all_goals simp [stackSize, nodeListSize, nodeSize] <;> omega

/-- `RangeQuery::next` as a state transformer. -/
def RangeQuery.next (ops : RegionOps R P) (s : RangeQuery R P) :
    Option (P × RangeQuery R P) :=
  qnext ops s.query s.points s.stack

/-- Iterating `RangeQuery::next` to exhaustion from state `s` yields exactly
the list `l`. -/
inductive Yields (ops : RegionOps R P) : RangeQuery R P → List P → Prop where
  | done (s : RangeQuery R P) : RangeQuery.next ops s = none → Yields ops s []
  | step (s : RangeQuery R P) (p : P) (s' : RangeQuery R P) (l : List P) :
      RangeQuery.next ops s = some (p, s') → Yields ops s' l → Yields ops s (p :: l)

/-- The full list of points the iterator produces from given state
components; its recursion mirrors `qnext` case by case. -/
def qrun (ops : RegionOps R P) (query : R) :
    List P → List (List (NTree R P)) → List P
  | p :: rest, stack =>
    if ops.contains query p then p :: qrun ops query rest stack
    else qrun ops query rest stack
  | [], [] => []
  | [], [] :: stack => qrun ops query [] stack
  | [], (.Bucket region points _ :: rest) :: stack =>
    if ops.overlaps region query then qrun ops query points (rest :: stack)
    else qrun ops query [] (rest :: stack)
  | [], (.Branch region subs :: rest) :: stack =>
    if ops.overlaps region query then qrun ops query [] (subs :: rest :: stack)
    else qrun ops query [] (rest :: stack)
termination_by pts stack => pts.length + stackSize stack
decreasing_by
  all_goals simp [stackSize, nodeListSize, nodeSize] <;> omega

/-- Two states on which `next` agrees yield the same exhaustion lists. -/
theorem yields_congr (ops : RegionOps R P) (s1 s2 : RangeQuery R P) (l : List P)
    (h : RangeQuery.next ops s1 = RangeQuery.next ops s2) (hy : Yields ops s2 l) :
    Yields ops s1 l := by
  cases hy with
  | done _ h2 => exact Yields.done s1 (h.trans h2)
  | step _ p s' l h2 hy' => exact Yields.step s1 p s' l (h.trans h2) hy'

/-- Iterating `next` to exhaustion from any state yields `qrun` of it. -/
theorem yields_qrun (ops : RegionOps R P) (query : R) :
    ∀ pts stack, Yields ops ⟨query, pts, stack⟩ (qrun ops query pts stack) := by
  intro pts stack
  induction pts, stack using qrun.induct ops query with
  | case1 p rest stack h ih =>
    rw [qrun]
    simp [h]
    exact Yields.step _ p ⟨query, rest, stack⟩ _ (by simp [RangeQuery.next, qnext, h]) ih
  | case2 p rest stack h ih =>
    rw [qrun]
    simp [h]
    exact yields_congr ops _ ⟨query, rest, stack⟩ _ (by simp [RangeQuery.next, qnext, h]) ih
  | case3 =>
    rw [qrun]
    exact Yields.done ⟨query, [], []⟩ (by rw [RangeQuery.next, qnext])
  | case4 stack ih =>
    rw [qrun]
    exact yields_congr ops _ ⟨query, [], stack⟩ _ (by rw [RangeQuery.next, RangeQuery.next, qnext]) ih
  | case5 region points lim rest stack h ih =>
    rw [qrun]
    simp [h]
    exact yields_congr ops _ ⟨query, points, rest :: stack⟩ _ (by rw [RangeQuery.next, RangeQuery.next, qnext]; simp [h]) ih
  | case6 region points lim rest stack h ih =>
    rw [qrun]
    simp [h]
    exact yields_congr ops _ ⟨query, [], rest :: stack⟩ _ (by rw [RangeQuery.next, RangeQuery.next, qnext]; simp [h]) ih
  | case7 region subs rest stack h ih =>
    rw [qrun]
    simp [h]
    exact yields_congr ops _ ⟨query, [], subs :: rest :: stack⟩ _ (by rw [RangeQuery.next, RangeQuery.next, qnext]; simp [h]) ih
  | case8 region subs rest stack h ih =>
    rw [qrun]
    simp [h]
    exact yields_congr ops _ ⟨query, [], rest :: stack⟩ _ (by rw [RangeQuery.next, RangeQuery.next, qnext]; simp [h]) ih
mutual

/-- Coverage invariant used to justify the `overlaps` pruning of the
range-query traversal: every point stored anywhere below a node is contained
in that node's own region. -/
def covered (ops : RegionOps R P) : NTree R P → Prop
  | .Bucket region points _ => ∀ q ∈ points, ops.contains region q = true
  | .Branch region subs =>
    (∀ q ∈ allPointsList subs, ops.contains region q = true) ∧ coveredList ops subs

/-- `covered` for every tree in a list. -/
def coveredList (ops : RegionOps R P) : List (NTree R P) → Prop
  | [] => True
  | t :: ts => covered ops t ∧ coveredList ops ts

end

theorem coveredList_iff (ops : RegionOps R P) (ts : List (NTree R P)) :
    coveredList ops ts ↔ ∀ t ∈ ts, covered ops t := by
  induction ts with
  | nil => simp [coveredList]
  | cons t ts ih => simp [coveredList, ih]

/-- All points stored in all trees of all levels of the iterator stack. -/
def flatStack : List (List (NTree R P)) → List P
  | [] => []
  | ci :: s => allPointsList ci ++ flatStack s

/-- The iterator exhaustion from any intermediate state whose stack satisfies
the coverage invariant is the query-`contains` filter of the pending points
followed by everything stored on the stack, in order: the two-stage
(`overlaps` prune + `contains` filter) traversal drops nothing it should
keep and keeps nothing it should drop. -/
theorem qrun_filter (ops : RegionOps R P) (query : R)
    (hov : ∀ r x, ops.contains r x = true → ops.contains query x = true →
      ops.overlaps r query = true) :
    ∀ pts stack, (∀ ci ∈ stack, ∀ t ∈ ci, covered ops t) →
      qrun ops query pts stack =
        (pts ++ flatStack stack).filter (fun x => ops.contains query x) := by
  intro pts stack
  induction pts, stack using qrun.induct ops query with
  | case1 p rest stack h ih =>
    intro hc
    rw [qrun]
    simp only [h, if_true, List.cons_append, List.filter_cons, ih hc]
  | case2 p rest stack h ih =>
    intro hc
    rw [qrun]
    simp only [Bool.not_eq_true] at h
    simp only [h, Bool.false_eq_true, if_false, List.cons_append, List.filter_cons, ih hc]
  | case3 =>
    intro hc
    rw [qrun]
    rfl
  | case4 stack ih =>
    intro hc
    rw [qrun]
    rw [ih (fun ci hci => hc ci (List.mem_cons_of_mem _ hci))]
    simp [flatStack, allPointsList]
  | case5 region points lim rest stack h ih =>
    intro hc
    have hcov : covered ops (.Bucket region points lim) :=
      hc _ (List.mem_cons_self _ _) _ (List.mem_cons_self _ _)
    have hc' : ∀ ci ∈ rest :: stack, ∀ t ∈ ci, covered ops t := by
      intro ci hci t ht
      rcases List.mem_cons.mp hci with rfl | hci
      · exact hc _ (List.mem_cons_self _ _) t (List.mem_cons_of_mem _ ht)
      · exact hc _ (List.mem_cons_of_mem _ hci) t ht
    rw [qrun]
    simp only [h, if_true, ih hc']
    simp [flatStack, allPointsList, allPoints, List.append_assoc]
  | case6 region points lim rest stack h ih =>
    intro hc
    have hcov : covered ops (.Bucket region points lim) :=
      hc _ (List.mem_cons_self _ _) _ (List.mem_cons_self _ _)
    have hc' : ∀ ci ∈ rest :: stack, ∀ t ∈ ci, covered ops t := by
      intro ci hci t ht
      rcases List.mem_cons.mp hci with rfl | hci
      · exact hc _ (List.mem_cons_self _ _) t (List.mem_cons_of_mem _ ht)
      · exact hc _ (List.mem_cons_of_mem _ hci) t ht
    have hnil : points.filter (fun x => ops.contains query x) = [] := by
      refine List.filter_eq_nil_iff.mpr ?_
      intro q hq hqq
      simp only [Bool.not_eq_true] at h
      have := hov region q (by simpa [covered] using hcov q hq) (by simpa using hqq)
      rw [this] at h
      exact Bool.true_eq_false.mp h
    rw [qrun]
    simp only [Bool.not_eq_true] at h
    simp only [h, Bool.false_eq_true, if_false, ih hc']
    simp [flatStack, allPointsList, allPoints, List.filter_append, hnil]
  | case7 region subs rest stack h ih =>
    intro hc
    have hcov : covered ops (.Branch region subs) :=
      hc _ (List.mem_cons_self _ _) _ (List.mem_cons_self _ _)
    have hc' : ∀ ci ∈ subs :: rest :: stack, ∀ t ∈ ci, covered ops t := by
      intro ci hci t ht
      rcases List.mem_cons.mp hci with heq | hci
      · have hts : t ∈ subs := heq ▸ ht
        have hcl : coveredList ops subs := by
          rw [covered] at hcov
          exact hcov.2
        exact (coveredList_iff ops subs).mp hcl t hts
      rcases List.mem_cons.mp hci with rfl | hci
      · exact hc _ (List.mem_cons_self _ _) t (List.mem_cons_of_mem _ ht)
      · exact hc _ (List.mem_cons_of_mem _ hci) t ht
    rw [qrun]
    simp only [h, if_true, ih hc']
    simp [flatStack, allPointsList, allPoints, List.append_assoc]
  | case8 region subs rest stack h ih =>
    intro hc
    have hcov : covered ops (.Branch region subs) :=
      hc _ (List.mem_cons_self _ _) _ (List.mem_cons_self _ _)
    have hc' : ∀ ci ∈ rest :: stack, ∀ t ∈ ci, covered ops t := by
      intro ci hci t ht
      rcases List.mem_cons.mp hci with rfl | hci
      · exact hc _ (List.mem_cons_self _ _) t (List.mem_cons_of_mem _ ht)
      · exact hc _ (List.mem_cons_of_mem _ hci) t ht
    have hnil : (allPointsList subs).filter (fun x => ops.contains query x) = [] := by
      refine List.filter_eq_nil_iff.mpr ?_
      intro q hq hqq
      simp only [Bool.not_eq_true] at h
      have hcq : ops.contains region q = true := by
        rw [covered] at hcov
        exact hcov.1 q hq
      have := hov region q hcq (by simpa using hqq)
      rw [this] at h
      exact Bool.true_eq_false.mp h
    rw [qrun]
    simp only [Bool.not_eq_true] at h
    simp only [h, Bool.false_eq_true, if_false, ih hc']
    simp [flatStack, allPointsList, allPoints, List.filter_append, hnil]

theorem allPointsList_append (xs ys : List (NTree R P)) :
    allPointsList (xs ++ ys) = allPointsList xs ++ allPointsList ys := by
  induction xs with
  | nil => simp [allPointsList]
  | cons t ts ih => simp [allPointsList, ih]

/-- Characterization of a successful child-insert scan: the child list splits
as a prefix of children that do not claim the point, the first child that
does (into which `f` recursed), and the untouched remainder. -/
theorem insertChildren_ok_decomp (ops : RegionOps R P)
    (f : NTree R P → P → InsResult R P) :
    ∀ subs point subs' b, insertChildrenAux ops f subs point = .ok subs' b →
      ∃ pre c post c', subs = pre ++ c :: post ∧ subs' = pre ++ c' :: post ∧
        (∀ x ∈ pre, NTree.contains ops x point = false) ∧
        NTree.contains ops c point = true ∧ f c point = .ok c' b := by
  intro subs
  induction subs with
  | nil => intro point subs' b h; simp [insertChildrenAux] at h
  | cons t ts ih =>
    intro point subs' b h
    rw [insertChildrenAux] at h
    by_cases hct : NTree.contains ops t point
    · simp only [hct, if_true] at h
      cases hf : f t point with
      | ok t2 b2 =>
        rw [hf] at h
        cases h
        exact ⟨[], t, ts, t2, rfl, rfl, by simp, hct, hf⟩
      | panicked => rw [hf] at h; cases h
      | outOfFuel => rw [hf] at h; cases h
    · simp only [Bool.not_eq_true] at hct
      simp only [hct, Bool.false_eq_true, if_false] at h
      cases hr : insertChildrenAux ops f ts point with
      | ok ts2 b2 =>
        rw [hr] at h
        cases h
        obtain ⟨pre, c, post, c', hts, hts2, hpre, hcc, hfc⟩ := ih point ts2 _ hr
        exact ⟨t :: pre, c, post, c', by simp [hts], by simp [hts2],
          by intro x hx; rcases List.mem_cons.mp hx with rfl | hx; exact hct; exact hpre x hx,
          hcc, hfc⟩
      | nochild => rw [hr] at h; cases h
      | panicked => rw [hr] at h; cases h
      | outOfFuel => rw [hr] at h; cases h

/-- When the scan reports no child, no child's region contains the point. -/
theorem insertChildren_nochild (ops : RegionOps R P)
    (f : NTree R P → P → InsResult R P) :
    ∀ subs point, insertChildrenAux ops f subs point = .nochild →
      ∀ x ∈ subs, NTree.contains ops x point = false := by
  intro subs
  induction subs with
  | nil => intro point _ x hx; cases hx
  | cons t ts ih =>
    intro point h x hx
    rw [insertChildrenAux] at h
    by_cases hct : NTree.contains ops t point
    · simp only [hct, if_true] at h
      cases hf : f t point <;> rw [hf] at h <;> cases h
    · simp only [Bool.not_eq_true] at hct
      simp only [hct, Bool.false_eq_true, if_false] at h
      rcases List.mem_cons.mp hx with rfl | hx
      · exact hct
      cases hr : insertChildrenAux ops f ts point <;> rw [hr] at h <;> cases h
      exact ih point hr x hx

theorem wf_new (ops : RegionOps R P) (r : R) (lim : Nat) (h : lim ≤ 255) :
    wf ops (NTree.new ops r lim) := by
  rw [NTree.new, wf]
  constructor
  · rw [List.map_map]
    have : (NTree.region ∘ fun rr => (NTree.Bucket rr [] lim : NTree R P)) = id := by
      funext rr
      rfl
    rw [this, List.map_id]
  · rw [wfList_iff]
    intro t ht
    obtain ⟨rr, _, rfl⟩ := List.mem_map.mp ht
    rw [wf]
    exact ⟨by simp, Nat.zero_le _, h⟩

theorem limitsAre_new (ops : RegionOps R P) (r : R) (n : Nat) :
    limitsAre n (NTree.new ops r n) := by
  rw [NTree.new, limitsAre, limitsAreList_iff]
  intro t ht
  obtain ⟨rr, _, rfl⟩ := List.mem_map.mp ht
  rw [limitsAre]

theorem allPoints_new (ops : RegionOps R P) (r : R) (n : Nat) :
    allPoints (NTree.new ops r n) = [] := by
  rw [NTree.new, allPoints]
  induction ops.split r with
  | nil => rw [List.map_nil, allPointsList]
  | cons x xs ih => rw [List.map_cons, allPointsList, ih, allPoints, List.nil_append]

/-- Shape of the preservation facts threaded through one `insert` call
(parameterised by the recursive call `f`). -/
def PreservesFn (ops : RegionOps R P) (f : NTree R P → P → InsResult R P) : Prop :=
  ∀ t p t' b, wf ops t → f t p = .ok t' b →
    wf ops t' ∧ t'.region = t.region ∧ (t.isBranch = true → t'.isBranch = true) ∧
      (∀ n, limitsAre n t → limitsAre n t')

/-- The reinsertion loop preserves well-formedness, the root region, being a
branch, and the uniform bucket limit. -/
theorem all_preserves (ops : RegionOps R P) (f : NTree R P → P → InsResult R P)
    (hf : PreservesFn ops f) :
    ∀ ps t t1, wf ops t → insertAllAux ops f t ps = .ok t1 →
      wf ops t1 ∧ t1.region = t.region ∧ (t.isBranch = true → t1.isBranch = true) ∧
        (∀ n, limitsAre n t → limitsAre n t1) := by
  intro ps
  induction ps with
  | nil =>
    intro t t1 hwf h
    rw [insertAllAux] at h
    cases h
    exact ⟨hwf, rfl, fun hb => hb, fun n hn => hn⟩
  | cons p ps ih =>
    intro t t1 hwf h
    rw [insertAllAux] at h
    cases hf1 : f t p with
    | ok t2 b2 =>
      rw [hf1] at h
      obtain ⟨hwf2, hreg2, hbr2, hlim2⟩ := hf t p t2 b2 hwf hf1
      obtain ⟨hwf1, hreg1, hbr1, hlim1⟩ := ih t2 t1 hwf2 h
      exact ⟨hwf1, hreg1.trans hreg2, fun hb => hbr1 (hbr2 hb),
        fun n hn => hlim1 n (hlim2 n hn)⟩
    | panicked => rw [hf1] at h; cases h
    | outOfFuel => rw [hf1] at h; cases h

/-- `split_and_insert` on a bucket with a `u8`-sized limit produces a
well-formed branch rooted at the same region, keeping the bucket limit. -/
theorem split_preserves (ops : RegionOps R P) (f : NTree R P → P → InsResult R P)
    (hf : PreservesFn ops f) :
    ∀ r pts lim p t', lim ≤ 255 →
      split_and_insertAux ops f (.Bucket r pts lim) p = .ok t' →
      wf ops t' ∧ t'.region = r ∧ t'.isBranch = true ∧ limitsAre lim t' := by
  intro r pts lim p t' hlim h
  cases hall : insertAllAux ops f (NTree.new ops r lim) pts with
  | ok t1 =>
    cases hf1 : f t1 p with
    | ok t2 b2 =>
      rw [split_and_insertAux, hall] at h
      dsimp only at h
      rw [hf1] at h
      cases h
      obtain ⟨hwf1, hreg1, hbr1, hlims1⟩ :=
        all_preserves ops f hf pts (NTree.new ops r lim) t1 (wf_new ops r lim hlim) hall
      obtain ⟨hwf2, hreg2, hbr2, hlims2⟩ := hf t1 p _ b2 hwf1 hf1
      refine ⟨hwf2, ?_, ?_, ?_⟩
      · rw [hreg2, hreg1]
        rfl
      · exact hbr2 (hbr1 rfl)
      · exact hlims2 lim (hlims1 lim (limitsAre_new ops r lim))
    | panicked =>
      rw [split_and_insertAux, hall] at h
      dsimp only at h
      rw [hf1] at h
      cases h
    | outOfFuel =>
      rw [split_and_insertAux, hall] at h
      dsimp only at h
      rw [hf1] at h
      cases h
  | panicked => rw [split_and_insertAux, hall] at h; cases h
  | outOfFuel => rw [split_and_insertAux, hall] at h; cases h

/-- A successful `insert` preserves well-formedness, the root region, being a
branch, and the uniform bucket limit; and a `false` return leaves the tree
completely unchanged (insertion is never partial). -/
theorem insert_preserves (ops : RegionOps R P) :
    ∀ fuel t p t' b, wf ops t → NTree.insert ops fuel t p = .ok t' b →
      wf ops t' ∧ t'.region = t.region ∧ (t.isBranch = true → t'.isBranch = true) ∧
        (∀ n, limitsAre n t → limitsAre n t') ∧ (b = false → t' = t) := by
  intro fuel
  induction fuel with
  | zero => intro t p t' b _ h; rw [NTree.insert] at h; cases h
  | succ fuel ih =>
    have ihf : PreservesFn ops (NTree.insert ops fuel) := by
      intro t p t' b hwf h
      obtain ⟨h1, h2, h3, h4, _⟩ := ih t p t' b hwf h
      exact ⟨h1, h2, h3, h4⟩
    intro t p t' b hwf h
    cases t with
    | Bucket r pts lim =>
      rw [NTree.insert] at h
      rw [wf] at hwf
      obtain ⟨hcon, hlen, hlim⟩ := hwf
      split at h
      · split at h
        · cases h
          rename_i hc hfull
          refine ⟨?_, rfl, ?_, ?_, ?_⟩
          · rw [wf]
            refine ⟨?_, ?_, hlim⟩
            · intro q hq
              rcases List.mem_append.mp hq with hq | hq
              · exact hcon q hq
              · rw [List.mem_singleton.mp hq]
                exact hc
            · rw [List.length_append, List.length_singleton]
              have hmod : pts.length % 256 = pts.length :=
                Nat.mod_eq_of_lt (Nat.lt_of_le_of_lt hlen (Nat.lt_of_le_of_lt hlim (by omega)))
              rw [hmod] at hfull
              omega
          · intro hx
            cases hx
          · intro n hn
            rw [limitsAre] at hn
            rw [limitsAre]
            exact hn
          · intro hx
            cases hx
        · rename_i hc hfull
          cases hsp : split_and_insertAux ops (NTree.insert ops fuel) (.Bucket r pts lim) p with
          | ok t2 =>
            rw [hsp] at h
            cases h
            obtain ⟨hwf2, hreg2, hbr2, hlims2⟩ :=
              split_preserves ops (NTree.insert ops fuel) ihf r pts lim p _ hlim hsp
            refine ⟨hwf2, ?_, ?_, ?_, ?_⟩
            · rw [hreg2]
              rfl
            · intro hx
              cases hx
            · intro n hn
              rw [limitsAre] at hn
              rw [hn] at hlims2
              exact hlims2
            · intro hx
              cases hx
          | panicked => rw [hsp] at h; cases h
          | outOfFuel => rw [hsp] at h; cases h
      · cases h
        exact ⟨by rw [wf]; exact ⟨hcon, hlen, hlim⟩, rfl, fun hb => hb,
          fun n hn => hn, fun _ => rfl⟩
    | Branch r subs =>
      rw [NTree.insert] at h
      split at h
      · rename_i hc
        cases hch : insertChildrenAux ops (NTree.insert ops fuel) subs p with
        | ok subs' b2 =>
          rw [hch] at h
          cases h
          obtain ⟨pre, c, post, c', hsubs, hsubs', hpre, hcc, hfc⟩ :=
            insertChildren_ok_decomp ops (NTree.insert ops fuel) subs p subs' _ hch
          rw [wf] at hwf
          obtain ⟨hmap, hwfl⟩ := hwf
          have hwfc : wf ops c := by
            refine (wfList_iff ops subs).mp hwfl c ?_
            rw [hsubs]
            exact List.mem_append.mpr (Or.inr (List.mem_cons_self _ _))
          obtain ⟨hwfc', hregc', hbrc', hlimc', huncc'⟩ := ih c p c' _ hwfc hfc
          refine ⟨?_, rfl, fun hb => hb, ?_, ?_⟩
          · rw [wf]
            constructor
            · rw [hsubs', List.map_append, List.map_cons, hregc', ← List.map_cons,
                ← List.map_append, ← hsubs]
              exact hmap
            · rw [wfList_iff]
              intro x hx
              rw [hsubs'] at hx
              rcases List.mem_append.mp hx with hx | hx
              · refine (wfList_iff ops subs).mp hwfl x ?_
                rw [hsubs]
                exact List.mem_append.mpr (Or.inl hx)
              rcases List.mem_cons.mp hx with rfl | hx
              · exact hwfc'
              · refine (wfList_iff ops subs).mp hwfl x ?_
                rw [hsubs]
                exact List.mem_append.mpr (Or.inr (List.mem_cons_of_mem _ hx))
          · intro n hn
            rw [limitsAre] at hn
            rw [limitsAre, limitsAreList_iff]
            intro x hx
            rw [hsubs'] at hx
            have hsl : ∀ y ∈ subs, limitsAre n y := (limitsAreList_iff n subs).mp hn
            rcases List.mem_append.mp hx with hx | hx
            · refine hsl x ?_
              rw [hsubs]
              exact List.mem_append.mpr (Or.inl hx)
            rcases List.mem_cons.mp hx with rfl | hx
            · refine hlimc' n (hsl c ?_)
              rw [hsubs]
              exact List.mem_append.mpr (Or.inr (List.mem_cons_self _ _))
            · refine hsl x ?_
              rw [hsubs]
              exact List.mem_append.mpr (Or.inr (List.mem_cons_of_mem _ hx))
          · intro hb
            rw [hsubs, hsubs', huncc' hb]
        | nochild =>
          rw [hch] at h
          cases h
          exact ⟨hwf, rfl, fun hb => hb, fun n hn => hn, fun _ => rfl⟩
        | panicked => rw [hch] at h; cases h
        | outOfFuel => rw [hch] at h; cases h
      · cases h
        exact ⟨hwf, rfl, fun hb => hb, fun n hn => hn, fun _ => rfl⟩

/-- Semantic content of the Region capability contract the tree relies on
(the invariants documented on `Region::split` and the meaning of
`Region::overlaps`): a sub-region only contains points of its parent, every
point of a region is claimed by at least one sub-region, and two regions
sharing a point overlap. -/
structure LawfulRegion (ops : RegionOps R P) : Prop where
  overlaps_of_contains : ∀ r q x, ops.contains r x = true → ops.contains q x = true →
    ops.overlaps r q = true
  split_subset : ∀ r r' x, r' ∈ ops.split r → ops.contains r' x = true →
    ops.contains r x = true
  split_cover : ∀ r x, ops.contains r x = true →
    ∃ r' ∈ ops.split r, ops.contains r' x = true

theorem mem_allPointsList (q : P) :
    ∀ ts : List (NTree R P), q ∈ allPointsList ts → ∃ c ∈ ts, q ∈ allPoints c := by
  intro ts
  induction ts with
  | nil => intro h; rw [allPointsList] at h; cases h
  | cons t ts ih =>
    intro h
    rw [allPointsList] at h
    rcases List.mem_append.mp h with h | h
    · exact ⟨t, List.mem_cons_self _ _, h⟩
    · obtain ⟨c, hc, hq⟩ := ih h
      exact ⟨c, List.mem_cons_of_mem _ hc, hq⟩

mutual

/-- In a well-formed tree over sub-region-refining splits, every stored point
is contained in the root's own region. -/
theorem stored_contained (ops : RegionOps R P)
    (hsub : ∀ r r' x, r' ∈ ops.split r → ops.contains r' x = true →
      ops.contains r x = true) :
    ∀ t : NTree R P, wf ops t → ∀ q ∈ allPoints t, ops.contains t.region q = true
  | .Bucket r pts lim => by
    intro hwf q hq
    rw [wf] at hwf
    rw [allPoints] at hq
    exact hwf.1 q hq
  | .Branch r subs => by
    intro hwf q hq
    rw [wf] at hwf
    rw [allPoints] at hq
    have hlist := stored_contained_list ops hsub subs hwf.2
    obtain ⟨c, hcmem, hcq⟩ := mem_allPointsList q subs hq
    have hcreg : ops.contains c.region q = true := hlist c hcmem q hcq
    have hmem : c.region ∈ ops.split r := by
      rw [← hwf.1]
      exact List.mem_map.mpr ⟨c, hcmem, rfl⟩
    rw [NTree.region]
    exact hsub r c.region q hmem hcreg

/-- List version of `stored_contained`. -/
theorem stored_contained_list (ops : RegionOps R P)
    (hsub : ∀ r r' x, r' ∈ ops.split r → ops.contains r' x = true →
      ops.contains r x = true) :
    ∀ ts : List (NTree R P), wfList ops ts →
      ∀ c ∈ ts, ∀ q ∈ allPoints c, ops.contains c.region q = true
  | [] => by
    intro _ c hc
    cases hc
  | t :: ts => by
    intro hwf c hc q hq
    rw [wfList] at hwf
    rcases List.mem_cons.mp hc with rfl | hc
    · exact stored_contained ops hsub c hwf.1 q hq
    · exact stored_contained_list ops hsub ts hwf.2 c hc q hq

end

mutual

/-- Well-formedness plus the sub-region refinement law give the coverage
invariant used by the range-query pruning argument. -/
theorem covered_of_wf (ops : RegionOps R P)
    (hsub : ∀ r r' x, r' ∈ ops.split r → ops.contains r' x = true →
      ops.contains r x = true) :
    ∀ t : NTree R P, wf ops t → covered ops t
  | .Bucket r pts lim => by
    intro hwf
    rw [wf] at hwf
    rw [covered]
    exact hwf.1
  | .Branch r subs => by
    intro hwf
    have hstored := stored_contained ops hsub (.Branch r subs) hwf
    rw [wf] at hwf
    rw [covered]
    constructor
    · intro q hq
      have := hstored q (by rw [allPoints]; exact hq)
      rw [NTree.region] at this
      exact this
    · exact covered_of_wf_list ops hsub subs hwf.2

/-- List version of `covered_of_wf`. -/
theorem covered_of_wf_list (ops : RegionOps R P)
    (hsub : ∀ r r' x, r' ∈ ops.split r → ops.contains r' x = true →
      ops.contains r x = true) :
    ∀ ts : List (NTree R P), wfList ops ts → coveredList ops ts
  | [] => by
    intro _
    rw [coveredList]
    trivial
  | t :: ts => by
    intro hwf
    rw [wfList] at hwf
    rw [coveredList]
    exact ⟨covered_of_wf ops hsub t hwf.1, covered_of_wf_list ops hsub ts hwf.2⟩

end

/-- Skipping children whose region does not contain the point: `find` passes
over them. -/
theorem nearbyFind_append_skip (ops : RegionOps R P) (point : P) :
    ∀ pre rest, (∀ x ∈ pre, NTree.contains ops x point = false) →
      nearbyFind ops (pre ++ rest) point = nearbyFind ops rest point := by
  intro pre
  induction pre with
  | nil => intro rest _; rw [List.nil_append]
  | cons t ts ih =>
    intro rest hpre
    rw [List.cons_append, nearbyFind]
    have hct : NTree.contains ops t point = false := hpre t (List.mem_cons_self _ _)
    rw [hct]
    simp only [Bool.false_eq_true, if_false]
    exact ih rest (fun x hx => hpre x (List.mem_cons_of_mem _ hx))

/-- Shape of the completeness facts threaded through one `insert` call: a
point the root region contains is accepted; a `true` return adds exactly the
new point (as a multiset); and after a `true` return, `nearby` on the new
point finds a bucket list containing it. -/
def CompleteFn (ops : RegionOps R P) (f : NTree R P → P → InsResult R P) : Prop :=
  ∀ t p t' b, wf ops t → f t p = .ok t' b →
    (ops.contains t.region p = true → b = true) ∧
    (b = true → (allPoints t').Perm (p :: allPoints t)) ∧
    (b = true → ∃ l, nearby ops t' p = some l ∧ p ∈ l)

/-- The reinsertion loop over points the root region contains reinserts all
of them: the result stores exactly the old points plus the reinserted ones. -/
theorem all_complete (ops : RegionOps R P) (f : NTree R P → P → InsResult R P)
    (hfP : PreservesFn ops f) (hfC : CompleteFn ops f) :
    ∀ ps t t1, wf ops t → (∀ q ∈ ps, ops.contains t.region q = true) →
      insertAllAux ops f t ps = .ok t1 →
      (allPoints t1).Perm (ps ++ allPoints t) := by
  intro ps
  induction ps with
  | nil =>
    intro t t1 hwf _ h
    rw [insertAllAux] at h
    cases h
    rw [List.nil_append]
  | cons p ps ih =>
    intro t t1 hwf hcon h
    rw [insertAllAux] at h
    cases hf1 : f t p with
    | ok t2 b2 =>
      rw [hf1] at h
      obtain ⟨hacc, hperm, _⟩ := hfC t p t2 b2 hwf hf1
      have hb2 : b2 = true := hacc (hcon p (List.mem_cons_self _ _))
      obtain ⟨hwf2, hreg2, _, _⟩ := hfP t p t2 b2 hwf hf1
      have hcon2 : ∀ q ∈ ps, ops.contains t2.region q = true := by
        intro q hq
        rw [hreg2]
        exact hcon q (List.mem_cons_of_mem _ hq)
      have h1 := ih t2 t1 hwf2 hcon2 h
      have h2 : (ps ++ allPoints t2).Perm (ps ++ (p :: allPoints t)) :=
        List.Perm.append_left ps (hperm hb2)
      refine (h1.trans (h2.trans ?_))
      exact List.perm_middle
    | panicked => rw [hf1] at h; cases h
    | outOfFuel => rw [hf1] at h; cases h

/-- `split_and_insert` on a full bucket whose region contains the new point
redistributes exactly the old points plus the new one, and leaves the new
point findable by `nearby`. -/
theorem split_complete (ops : RegionOps R P) (f : NTree R P → P → InsResult R P)
    (hfP : PreservesFn ops f) (hfC : CompleteFn ops f) :
    ∀ r pts lim p t', wf ops (.Bucket r pts lim) → ops.contains r p = true →
      split_and_insertAux ops f (.Bucket r pts lim) p = .ok t' →
      (allPoints t').Perm (p :: pts) ∧ (∃ l, nearby ops t' p = some l ∧ p ∈ l) := by
  intro r pts lim p t' hwf hc h
  rw [wf] at hwf
  obtain ⟨hcon, hlen, hlim⟩ := hwf
  cases hall : insertAllAux ops f (NTree.new ops r lim) pts with
  | ok t1 =>
    cases hf1 : f t1 p with
    | ok t2 b2 =>
      rw [split_and_insertAux, hall] at h
      dsimp only at h
      rw [hf1] at h
      cases h
      have hwf0 : wf ops (NTree.new ops r lim) := wf_new ops r lim hlim
      have hcon0 : ∀ q ∈ pts, ops.contains (NTree.new ops r lim).region q = true := by
        intro q hq
        exact hcon q hq
      have hperm1 : (allPoints t1).Perm pts := by
        have := all_complete ops f hfP hfC pts (NTree.new ops r lim) t1 hwf0 hcon0 hall
        rw [allPoints_new, List.append_nil] at this
        exact this
      obtain ⟨hwf1, hreg1, _, _⟩ := all_preserves ops f hfP pts (NTree.new ops r lim) t1 hwf0 hall
      have hc1 : ops.contains t1.region p = true := by
        rw [hreg1]
        exact hc
      obtain ⟨hacc, hperm2, hnear⟩ := hfC t1 p _ b2 hwf1 hf1
      have hb2 : b2 = true := hacc hc1
      constructor
      · exact (hperm2 hb2).trans (List.Perm.cons p hperm1)
      · exact hnear hb2
    | panicked =>
      rw [split_and_insertAux, hall] at h
      dsimp only at h
      rw [hf1] at h
      cases h
    | outOfFuel =>
      rw [split_and_insertAux, hall] at h
      dsimp only at h
      rw [hf1] at h
      cases h
  | panicked => rw [split_and_insertAux, hall] at h; cases h
  | outOfFuel => rw [split_and_insertAux, hall] at h; cases h

/-- Master completeness induction: under the Region contract, an `insert`
into a well-formed tree accepts any point its root region contains, a `true`
return stores exactly one new copy of the point, and the stored point is
afterwards findable by `nearby`. -/
theorem insert_complete (ops : RegionOps R P) (law : LawfulRegion ops) :
    ∀ fuel, CompleteFn ops (NTree.insert ops fuel) := by
  intro fuel
  induction fuel with
  | zero =>
    intro t p t' b _ h
    rw [NTree.insert] at h
    cases h
  | succ fuel ih =>
    have ihf : PreservesFn ops (NTree.insert ops fuel) := by
      intro t p t' b hwf h
      obtain ⟨h1, h2, h3, h4, _⟩ := insert_preserves ops fuel t p t' b hwf h
      exact ⟨h1, h2, h3, h4⟩
    intro t p t' b hwf h
    cases t with
    | Bucket r pts lim =>
      rw [NTree.insert] at h
      rw [wf] at hwf
      obtain ⟨hcon, hlen, hlim⟩ := hwf
      split at h
      · rename_i hc
        split at h
        · cases h
          refine ⟨fun _ => rfl, fun _ => ?_, fun _ => ?_⟩
          · rw [allPoints, allPoints]
            exact List.perm_append_singleton p pts
          · refine ⟨pts ++ [p], ?_, ?_⟩
            · rw [nearby]
              rw [if_pos hc]
            · exact List.mem_append.mpr (Or.inr (List.mem_singleton.mpr rfl))
        · rename_i hfull
          cases hsp : split_and_insertAux ops (NTree.insert ops fuel) (.Bucket r pts lim) p with
          | ok t2 =>
            rw [hsp] at h
            cases h
            obtain ⟨hperm, hnear⟩ := split_complete ops (NTree.insert ops fuel) ihf ih
              r pts lim p _ (by rw [wf]; exact ⟨hcon, hlen, hlim⟩) hc hsp
            refine ⟨fun _ => rfl, fun _ => ?_, fun _ => hnear⟩
            rw [allPoints]
            exact hperm
          | panicked => rw [hsp] at h; cases h
          | outOfFuel => rw [hsp] at h; cases h
      · rename_i hc
        cases h
        simp only [Bool.not_eq_true] at hc
        refine ⟨?_, ?_, ?_⟩
        · intro hx
          rw [NTree.region] at hx
          rw [hx] at hc
          cases hc
        · intro hx
          cases hx
        · intro hx
          cases hx
    | Branch r subs =>
      rw [NTree.insert] at h
      split at h
      · rename_i hc
        cases hch : insertChildrenAux ops (NTree.insert ops fuel) subs p with
        | ok subs' b2 =>
          rw [hch] at h
          cases h
          obtain ⟨pre, c, post, c', hsubs, hsubs', hpre, hcc, hfc⟩ :=
            insertChildren_ok_decomp ops (NTree.insert ops fuel) subs p subs' _ hch
          rw [wf] at hwf
          obtain ⟨hmap, hwfl⟩ := hwf
          have hwfc : wf ops c := by
            refine (wfList_iff ops subs).mp hwfl c ?_
            rw [hsubs]
            exact List.mem_append.mpr (Or.inr (List.mem_cons_self _ _))
          obtain ⟨hacc, hperm, hnear⟩ := ih c p c' _ hwfc hfc
          have hb : b = true := by
            refine hacc ?_
            rw [← NTree.contains_eq_region]
            exact hcc
          refine ⟨fun _ => hb, fun _ => ?_, fun _ => ?_⟩
          · rw [allPoints, allPoints, hsubs, hsubs', allPointsList_append,
              allPointsList_append, allPointsList, allPointsList]
            have h1 : (allPoints c' ++ allPointsList post).Perm
                (p :: (allPoints c ++ allPointsList post)) := by
              have := List.Perm.append_right (allPointsList post) (hperm hb)
              exact this
            have h2 := List.Perm.append_left (allPointsList pre) h1
            refine h2.trans ?_
            exact List.perm_middle
          · obtain ⟨l, hl, hpl⟩ := hnear hb
            refine ⟨l, ?_, hpl⟩
            rw [nearby, if_pos hc, hsubs']
            rw [nearbyFind_append_skip ops p pre (c' :: post) hpre, nearbyFind]
            have hcc' : NTree.contains ops c' p = true := by
              rw [NTree.contains_eq_region]
              obtain ⟨_, hregc', _, _, _⟩ := insert_preserves ops fuel c p c' _ hwfc hfc
              rw [hregc', ← NTree.contains_eq_region]
              exact hcc
            rw [if_pos hcc']
            exact hl
        | nochild =>
          rw [hch] at h
          cases h
          refine ⟨?_, ?_, ?_⟩
          · intro _
            exfalso
            rw [wf] at hwf
            obtain ⟨hmap, hwfl⟩ := hwf
            obtain ⟨r', hr'mem, hr'c⟩ := law.split_cover r p hc
            rw [← hmap] at hr'mem
            obtain ⟨c, hcmem, hcreg⟩ := List.mem_map.mp hr'mem
            have := insertChildren_nochild ops (NTree.insert ops fuel) subs p hch c hcmem
            rw [NTree.contains_eq_region, hcreg, hr'c] at this
            cases this
          · intro hx
            cases hx
          · intro hx
            cases hx
        | panicked => rw [hch] at h; cases h
        | outOfFuel => rw [hch] at h; cases h
      · rename_i hc
        cases h
        simp only [Bool.not_eq_true] at hc
        refine ⟨?_, ?_, ?_⟩
        · intro hx
          rw [NTree.region] at hx
          rw [hx] at hc
          cases hc
        · intro hx
          cases hx
        · intro hx
          cases hx

/-- If the recursive call never panics, the child scan never panics. -/
theorem insertChildren_no_panic (ops : RegionOps R P)
    (f : NTree R P → P → InsResult R P) (hf : ∀ t p, f t p ≠ .panicked) :
    ∀ subs point, insertChildrenAux ops f subs point ≠ .panicked := by
  intro subs
  induction subs with
  | nil => intro point h; rw [insertChildrenAux] at h; cases h
  | cons t ts ih =>
    intro point h
    rw [insertChildrenAux] at h
    by_cases hct : NTree.contains ops t point
    · simp only [hct, if_true] at h
      cases hft : f t point <;> rw [hft] at h
      · cases h
      · exact hf t point hft
      · cases h
    · simp only [Bool.not_eq_true] at hct
      simp only [hct, Bool.false_eq_true, if_false] at h
      cases hr : insertChildrenAux ops f ts point <;> rw [hr] at h
      · cases h
      · cases h
      · exact ih point hr
      · cases h

/-- If the recursive call never panics, the reinsertion loop never panics. -/
theorem insertAll_no_panic (ops : RegionOps R P)
    (f : NTree R P → P → InsResult R P) (hf : ∀ t p, f t p ≠ .panicked) :
    ∀ ps t, insertAllAux ops f t ps ≠ .panicked := by
  intro ps
  induction ps with
  | nil => intro t h; rw [insertAllAux] at h; cases h
  | cons p ps ih =>
    intro t h
    rw [insertAllAux] at h
    cases hft : f t p <;> rw [hft] at h
    · exact ih _ h
    · exact hf t p hft
    · cases h

/-- If the recursive call never panics, `split_and_insert` applied to a node
in the `Bucket` state never reaches a panic: the `unreachable!()` arm is the
`Branch` state only. -/
theorem split_no_panic_on_bucket (ops : RegionOps R P)
    (f : NTree R P → P → InsResult R P) (hf : ∀ t p, f t p ≠ .panicked) :
    ∀ r pts lim point,
      split_and_insertAux ops f (.Bucket r pts lim) point ≠ .panicked := by
  intro r pts lim point h
  cases hall : insertAllAux ops f (NTree.new ops r lim) pts with
  | ok t1 =>
    cases hf1 : f t1 point with
    | ok t2 b2 =>
      rw [split_and_insertAux, hall] at h
      dsimp only at h
      rw [hf1] at h
      cases h
    | panicked => exact hf t1 point hf1
    | outOfFuel =>
      rw [split_and_insertAux, hall] at h
      dsimp only at h
      rw [hf1] at h
      cases h
  | panicked => exact insertAll_no_panic ops f hf pts (NTree.new ops r lim) hall
  | outOfFuel => rw [split_and_insertAux, hall] at h; cases h

/-- `insert` never executes the `unreachable!()` arm: along every insertion
path, `split_and_insert` is only ever applied to a node in the `Bucket`
state. -/
theorem insert_no_panic (ops : RegionOps R P) :
    ∀ fuel t p, NTree.insert ops fuel t p ≠ .panicked := by
  intro fuel
  induction fuel with
  | zero => intro t p h; rw [NTree.insert] at h; cases h
  | succ fuel ih =>
    intro t p h
    cases t with
    | Bucket r pts lim =>
      rw [NTree.insert] at h
      split at h
      · split at h
        · cases h
        · cases hsp : split_and_insertAux ops (NTree.insert ops fuel) (.Bucket r pts lim) p with
          | ok t2 => rw [hsp] at h; cases h
          | panicked =>
            exact split_no_panic_on_bucket ops (NTree.insert ops fuel)
              (fun t p => ih t p) r pts lim p hsp
          | outOfFuel => rw [hsp] at h; cases h
      · cases h
    | Branch r subs =>
      rw [NTree.insert] at h
      split at h
      · cases hch : insertChildrenAux ops (NTree.insert ops fuel) subs p with
        | ok subs' b2 => rw [hch] at h; cases h
        | nochild => rw [hch] at h; cases h
        | panicked =>
          exact insertChildren_no_panic ops (NTree.insert ops fuel)
            (fun t p => ih t p) subs p hch
        | outOfFuel => rw [hch] at h; cases h
      · cases h

/-- Every tree reachable through the public API is well-formed. -/
theorem reachable_wf (ops : RegionOps R P) (size : Nat) (h256 : size ≤ 255) :
    ∀ t : NTree R P, Reachable ops size t → wf ops t := by
  intro t hr
  induction hr with
  | base r => exact wf_new ops r size h256
  | step fuel hr hins ih =>
    exact (insert_preserves ops fuel _ _ _ _ ih hins).1

/-- Every bucket of a reachable tree carries the creation-time limit. -/
theorem reachable_limits (ops : RegionOps R P) (size : Nat) (h256 : size ≤ 255) :
    ∀ t : NTree R P, Reachable ops size t → limitsAre size t := by
  intro t hr
  induction hr with
  | base r => exact limitsAre_new ops r size
  | step fuel hr hins ih =>
    obtain ⟨_, _, _, hlim, _⟩ :=
      insert_preserves ops fuel _ _ _ _ (reachable_wf ops size h256 _ hr) hins
    exact hlim size ih

/-- The root of a reachable tree is a `Branch`. -/
theorem reachable_isBranch (ops : RegionOps R P) (size : Nat) (h256 : size ≤ 255) :
    ∀ t : NTree R P, Reachable ops size t → t.isBranch = true := by
  intro t hr
  induction hr with
  | base r => rfl
  | step fuel hr hins ih =>
    obtain ⟨_, _, hbr, _, _⟩ :=
      insert_preserves ops fuel _ _ _ _ (reachable_wf ops size h256 _ hr) hins
    exact hbr ih

mutual

/-- Well-formedness implies the decidable capacity invariant. -/
theorem capacity_of_wf (ops : RegionOps R P) :
    ∀ t : NTree R P, wf ops t → capacityOk t = true
  | .Bucket r pts lim => by
    intro hwf
    rw [wf] at hwf
    rw [capacityOk]
    exact decide_eq_true hwf.2.1
  | .Branch r subs => by
    intro hwf
    rw [wf] at hwf
    rw [capacityOk]
    exact capacity_of_wf_list ops subs hwf.2

/-- List version of `capacity_of_wf`. -/
theorem capacity_of_wf_list (ops : RegionOps R P) :
    ∀ ts : List (NTree R P), wfList ops ts → capacityOkList ts = true
  | [] => by
    intro _
    rw [capacityOkList]
  | t :: ts => by
    intro hwf
    rw [wfList] at hwf
    rw [capacityOkList]
    rw [capacity_of_wf ops t hwf.1, capacity_of_wf_list ops ts hwf.2]
    rfl

end

mutual

/-- A `nearby` result from a well-formed tree with uniform bucket limit `n`
has at most `n` points. -/
theorem nearby_length_le (ops : RegionOps R P) (n : Nat) (p : P) :
    ∀ t : NTree R P, wf ops t → limitsAre n t →
      ∀ l, nearby ops t p = some l → l.length ≤ n
  | .Bucket r pts lim => by
    intro hwf hlims l h
    rw [wf] at hwf
    rw [limitsAre] at hlims
    rw [nearby] at h
    split at h
    · cases h
      rw [← hlims]
      exact hwf.2.1
    · cases h
  | .Branch r subs => by
    intro hwf hlims l h
    rw [wf] at hwf
    rw [limitsAre] at hlims
    rw [nearby] at h
    split at h
    · exact nearby_length_le_list ops n p subs hwf.2 hlims l h
    · cases h

/-- List version of `nearby_length_le`. -/
theorem nearby_length_le_list (ops : RegionOps R P) (n : Nat) (p : P) :
    ∀ ts : List (NTree R P), wfList ops ts → limitsAreList n ts →
      ∀ l, nearbyFind ops ts p = some l → l.length ≤ n
  | [] => by
    intro _ _ l h
    rw [nearbyFind] at h
    cases h
  | t :: ts => by
    intro hwf hlims l h
    rw [wfList] at hwf
    rw [limitsAreList] at hlims
    rw [nearbyFind] at h
    split at h
    · exact nearby_length_le ops n p t hwf.1 hlims.1 l h
    · exact nearby_length_le_list ops n p ts hwf.2 hlims.2 l h

end

/-- Restatement of the specified `nearby` search, written from the spec's
words rather than the code: descend from the root, at each `Branch` choosing
the first child whose region contains the point, and return the full,
unfiltered point sequence of the single `Bucket` so reached when that
bucket's region contains the point; `none` when the root region excludes the
point or no child on the path contains it. -/
def nearbySpec (ops : RegionOps R P) : NTree R P → P → Option (List P)
  | .Bucket r pts _, p => if ops.contains r p = true then some pts else none
  | .Branch r subs, p =>
    if ops.contains r p = true then
      match hf : subs.find? (fun c => ops.contains c.region p) with
      | some c => nearbySpec ops c p
      | none => none
    else none
termination_by t _ => sizeOf t
decreasing_by
  have hmem := List.mem_of_find?_eq_some hf
  have := List.sizeOf_lt_of_mem hmem
  simp only [NTree.Branch.sizeOf_spec]
  omega

/-- The `find` loop of `nearby` agrees with `List.find?` over the region
test followed by recursion into the found child. -/
theorem nearbyFind_eq_find (ops : RegionOps R P) (p : P) :
    ∀ ts : List (NTree R P),
      nearbyFind ops ts p =
        match ts.find? (fun c => ops.contains c.region p) with
        | some c => nearby ops c p
        | none => none := by
  intro ts
  induction ts with
  | nil => rw [nearbyFind, List.find?_nil]
  | cons t ts ih =>
    rw [nearbyFind, List.find?_cons]
    by_cases hct : ops.contains t.region p = true
    · rw [NTree.contains_eq_region, if_pos hct, hct]
    · rw [NTree.contains_eq_region, if_neg hct]
      have hct2 : ops.contains t.region p = false := by
        simp only [Bool.not_eq_true] at hct
        exact hct
      rw [hct2]
      exact ih

theorem nearbySpec_branch_found (ops : RegionOps R P) (r : R)
    (subs : List (NTree R P)) (p : P) (c : NTree R P)
    (hc : ops.contains r p = true)
    (hf : subs.find? (fun c => ops.contains c.region p) = some c) :
    nearbySpec ops (.Branch r subs) p = nearbySpec ops c p := by
  rw [nearbySpec, if_pos hc]
  split
  · rename_i c2 hf2
    rw [hf] at hf2
    cases hf2
    rfl
  · rename_i hf2
    rw [hf] at hf2
    cases hf2

theorem nearbySpec_branch_nofind (ops : RegionOps R P) (r : R)
    (subs : List (NTree R P)) (p : P)
    (hc : ops.contains r p = true)
    (hf : subs.find? (fun c => ops.contains c.region p) = none) :
    nearbySpec ops (.Branch r subs) p = none := by
  rw [nearbySpec, if_pos hc]
  split
  · rename_i c2 hf2
    rw [hf] at hf2
    cases hf2
  · rfl

/-- The implemented `nearby` coincides with the specified descent
`nearbySpec` on every tree and point. -/
theorem nearby_eq_spec (ops : RegionOps R P) :
    ∀ t : NTree R P, ∀ p, nearby ops t p = nearbySpec ops t p
  | .Bucket r pts lim => by
    intro p
    rw [nearby, nearbySpec]
  | .Branch r subs => by
    intro p
    by_cases hc : ops.contains r p = true
    · rw [nearby, if_pos hc, nearbyFind_eq_find ops p subs]
      cases hf : subs.find? (fun c => ops.contains c.region p) with
      | none => rw [nearbySpec_branch_nofind ops r subs p hc hf]
      | some c =>
        rw [nearbySpec_branch_found ops r subs p c hc hf]
        have hmem := List.mem_of_find?_eq_some hf
        exact nearby_eq_spec ops c p
    · rw [nearby, nearbySpec, if_neg hc, if_neg hc]
termination_by t => sizeOf t
decreasing_by
  have := List.sizeOf_lt_of_mem hmem
  simp only [NTree.Branch.sizeOf_spec]
  omega

/-- Helper for fresh trees: searching a list of empty buckets built over
sub-regions, one of which contains the point, finds an empty point list. -/
theorem nearbyFind_empty_buckets (ops : RegionOps R P) (p : P) (n : Nat) :
    ∀ rs : List R, (∃ r' ∈ rs, ops.contains r' p = true) →
      nearbyFind ops (rs.map (fun rr => .Bucket rr [] n)) p = some [] := by
  intro rs
  induction rs with
  | nil => intro h; obtain ⟨r', hmem, _⟩ := h; cases hmem
  | cons r0 rs ih =>
    intro h
    rw [List.map_cons, nearbyFind]
    by_cases hc0 : ops.contains r0 p = true
    · have : NTree.contains ops (.Bucket r0 ([] : List P) n) p = true := hc0
      rw [if_pos this, nearby, if_pos hc0]
    · have hne : NTree.contains ops (.Bucket r0 ([] : List P) n) p = false := by
        simp only [Bool.not_eq_true] at hc0
        exact hc0
      rw [hne]
      simp only [Bool.false_eq_true, if_false]
      refine ih ?_
      obtain ⟨r', hmem, hcr'⟩ := h
      rcases List.mem_cons.mp hmem with rfl | hmem
      · have h2 : ops.contains r' p = false := hne
        rw [hcr'] at h2
        cases h2
      · exact ⟨r', hmem, hcr'⟩

/-- C1.  For every tree built via `new` and any sequence of `insert` calls
over a contract-conformant Region, and every point `p`, a terminating
`insert(p)` returns `true` iff `p` ends up stored in some bucket of the
resulting tree; and whenever it returns `false`, the tree is left completely
unchanged (insertion is never partial). -/
theorem insert_true_iff_stored (ops : RegionOps R P) (law : LawfulRegion ops)
    (size : Nat) (h256 : size ≤ 255) (t : NTree R P) (hr : Reachable ops size t)
    (fuel : Nat) (p : P) (t' : NTree R P) (b : Bool)
    (hins : NTree.insert ops fuel t p = .ok t' b) :
    (b = true ↔ p ∈ allPoints t') ∧ (b = false → t' = t) := by
  have hwf := reachable_wf ops size h256 t hr
  obtain ⟨_, _, _, _, hunch⟩ := insert_preserves ops fuel t p t' b hwf hins
  obtain ⟨hacc, hperm, _⟩ := insert_complete ops law fuel t p t' b hwf hins
  refine ⟨⟨?_, ?_⟩, hunch⟩
  · intro hb
    exact ((hperm hb).mem_iff).mpr (List.mem_cons_self p _)
  · intro hmem
    cases b with
    | true => rfl
    | false =>
      rw [hunch rfl] at hmem
      exact hacc (stored_contained ops law.split_subset t hwf p hmem)

/-- C2.  For every reachable tree over a contract-conformant Region and any
query region, iterating the `range_query` iterator to exhaustion yields
exactly the stored points the query region contains — none missing, none
extra or duplicated — in depth-first, left-to-right, bucket-insertion order
(the order of `allPoints`). -/
theorem range_query_yields_filter (ops : RegionOps R P) (law : LawfulRegion ops)
    (size : Nat) (h256 : size ≤ 255) (t : NTree R P) (hr : Reachable ops size t)
    (query : R) :
    Yields ops (NTree.range_query t query)
      ((allPoints t).filter (fun x => ops.contains query x)) := by
  have hwf := reachable_wf ops size h256 t hr
  have hcov : ∀ ci ∈ [[t]], ∀ x ∈ ci, covered ops x := by
    intro ci hci x hx
    rw [List.mem_singleton.mp hci] at hx
    rw [List.mem_singleton.mp hx]
    exact covered_of_wf ops law.split_subset t hwf
  have hq := qrun_filter ops query
    (fun rr x h1 h2 => law.overlaps_of_contains rr query x h1 h2) [] [[t]] hcov
  have hy := yields_qrun ops query [] [[t]]
  rw [hq] at hy
  have hflat : ([] ++ flatStack [[t]]) = allPoints t := by
    rw [List.nil_append, flatStack, flatStack, allPointsList, allPointsList,
      List.append_nil, List.append_nil]
  rw [hflat] at hy
  exact hy

/-- C3.  A terminating successful `insert` (in particular one that triggers a
split-and-reinsert) preserves the multiset of previously stored points: the
new tree stores exactly the old points plus the new one, nothing lost,
nothing duplicated. -/
theorem insert_multiset (ops : RegionOps R P) (law : LawfulRegion ops)
    (size : Nat) (h256 : size ≤ 255) (t : NTree R P) (hr : Reachable ops size t)
    (fuel : Nat) (p : P) (t' : NTree R P)
    (hins : NTree.insert ops fuel t p = .ok t' true) :
    (allPoints t' : Multiset P) = p ::ₘ (allPoints t : Multiset P) := by
  have hwf := reachable_wf ops size h256 t hr
  obtain ⟨_, hperm, _⟩ := insert_complete ops law fuel t p t' true hwf hins
  rw [Multiset.cons_coe]
  exact Multiset.coe_eq_coe.mpr (hperm rfl)

/-- C4.  In every reachable tree every bucket stores at most `bucket_limit`
points, and inserting into a bucket that has reached its limit splits it: the
node is a `Branch` when the insert completes. -/
theorem bucket_capacity (ops : RegionOps R P) (size : Nat) (h256 : size ≤ 255) :
    (∀ t : NTree R P, Reachable ops size t → capacityOk t = true) ∧
    (∀ fuel (r : R) (pts : List P) (lim : Nat) (p : P) (t' : NTree R P) (b : Bool),
      lim ≤ 255 → pts.length = lim → ops.contains r p = true →
      NTree.insert ops (fuel + 1) (.Bucket r pts lim) p = .ok t' b →
      t'.isBranch = true) := by
  constructor
  · intro t hr
    exact capacity_of_wf ops t (reachable_wf ops size h256 t hr)
  · intro fuel r pts lim p t' b hlim hfull hc h
    rw [NTree.insert] at h
    rw [if_pos hc] at h
    have hmod : ¬ pts.length % 256 ≠ lim := by
      rw [hfull]
      have : lim % 256 = lim := Nat.mod_eq_of_lt (by omega)
      rw [this]
      exact fun hx => hx rfl
    rw [if_neg hmod] at h
    have ihf : PreservesFn ops (NTree.insert ops fuel) := by
      intro t0 p0 t0' b0 hwf0 h0
      obtain ⟨h1, h2, h3, h4, _⟩ := insert_preserves ops fuel t0 p0 t0' b0 hwf0 h0
      exact ⟨h1, h2, h3, h4⟩
    cases hsp : split_and_insertAux ops (NTree.insert ops fuel) (.Bucket r pts lim) p with
    | ok t2 =>
      rw [hsp] at h
      cases h
      obtain ⟨_, _, hbr, _⟩ :=
        split_preserves ops (NTree.insert ops fuel) ihf r pts lim p _ hlim hsp
      exact hbr
    | panicked => rw [hsp] at h; cases h
    | outOfFuel => rw [hsp] at h; cases h

/-- C5.  Inserting a point the root region does not contain returns `false`
and leaves the tree unchanged (same structure, same stored points). -/
theorem insert_outside_noop (ops : RegionOps R P) (t : NTree R P) (p : P)
    (fuel : Nat) (hout : ops.contains t.region p = false) :
    NTree.insert ops (fuel + 1) t p = .ok t false := by
  cases t with
  | Bucket r pts lim =>
    rw [NTree.region] at hout
    rw [NTree.insert, hout]
    simp
  | Branch r subs =>
    rw [NTree.region] at hout
    rw [NTree.insert, hout]
    simp

/-- C6.  Over a contract-conformant Region, if an `insert` into a reachable
tree returns `true` and `contains` holds for the point immediately
afterwards, then `nearby` on that point returns a sequence that includes
it. -/
theorem insert_contains_nearby (ops : RegionOps R P) (law : LawfulRegion ops)
    (size : Nat) (h256 : size ≤ 255) (t : NTree R P) (hr : Reachable ops size t)
    (fuel : Nat) (p : P) (t' : NTree R P)
    (hins : NTree.insert ops fuel t p = .ok t' true)
    (hcont : NTree.contains ops t' p = true) :
    ∃ l, nearby ops t' p = some l ∧ p ∈ l := by
  have hwf := reachable_wf ops size h256 t hr
  obtain ⟨_, _, hnear⟩ := insert_complete ops law fuel t p t' true hwf hins
  exact hnear rfl

/-- C7.  `nearby` is exactly the specified single-path descent (first child
whose region contains the point, full unfiltered bucket list): it returns
`none` whenever the root region excludes the point, and on a reachable tree a
`some` result never has more than `size` (the bucket limit) points. -/
theorem nearby_characterization (ops : RegionOps R P) (size : Nat)
    (h256 : size ≤ 255) (t : NTree R P) (hr : Reachable ops size t) (p : P) :
    nearby ops t p = nearbySpec ops t p ∧
    (ops.contains t.region p = false → nearby ops t p = none) ∧
    (∀ l, nearby ops t p = some l → l.length ≤ size) := by
  refine ⟨nearby_eq_spec ops t p, ?_, ?_⟩
  · intro hout
    cases t with
    | Bucket r pts lim =>
      rw [NTree.region] at hout
      rw [nearby, hout]
      simp
    | Branch r subs =>
      rw [NTree.region] at hout
      rw [nearby, hout]
      simp
  · intro l hl
    exact nearby_length_le ops size p t (reachable_wf ops size h256 t hr)
      (reachable_limits ops size h256 t hr) l hl

/-- C8.  On every tree reachable through the public API, `insert` never
executes the `unreachable!()` arm of `split_and_insert`: the function is only
ever applied to a node in the `Bucket` state. -/
theorem insert_never_panics (ops : RegionOps R P) (size : Nat) (t : NTree R P)
    (hr : Reachable ops size t) (fuel : Nat) (p : P) :
    NTree.insert ops fuel t p ≠ .panicked :=
  insert_no_panic ops fuel t p

/-- C9.  `new(r, n)` is a `Branch` over `r` whose children are exactly one
empty bucket per element of `r.split()`, in order, each with sub-region and
limit `n`; the result is never a bare bucket, whatever the split arity. -/
theorem new_builds_branch (ops : RegionOps R P) (r : R) (n : Nat) :
    NTree.new ops r n =
      .Branch r ((ops.split r).map (fun sub => .Bucket sub ([] : List P) n)) ∧
    (NTree.new ops r n).isBranch = true :=
  ⟨rfl, rfl⟩

/-- C10.  `nearby` can return `some` of an empty sequence rather than `none`:
on a freshly constructed tree whose root region and some child region contain
the point, `nearby` returns `some []`. -/
theorem nearby_fresh_some_empty (ops : RegionOps R P) (r : R) (n : Nat) (p : P)
    (hc : ops.contains r p = true)
    (hchild : ∃ r' ∈ ops.split r, ops.contains r' p = true) :
    nearby ops (NTree.new ops r n) p = some [] := by
  rw [NTree.new, nearby, if_pos hc]
  exact nearbyFind_empty_buckets ops p n (ops.split r) hchild

/-- Concrete example geometry for witnesses: points are `Fin 2`; region `0`
is the whole space, region `1` is the half containing point `0`, region `2`
the half containing point `1`. -/
def exContains : Fin 3 → Fin 2 → Bool
  | 0, _ => true
  | 1, q => q == 0
  | 2, q => q == 1

/-- Splitting in the example geometry: the whole space splits into its two
halves; each half splits into itself. -/
def exSplit : Fin 3 → List (Fin 3)
  | 0 => [1, 2]
  | 1 => [1]
  | 2 => [2]

/-- Overlap in the example geometry: two regions overlap iff they share a
point. -/
def exOverlaps (r q : Fin 3) : Bool :=
  ([0, 1] : List (Fin 2)).any (fun x => exContains r x && exContains q x)

/-- The example `RegionOps` instance. -/
def exOps : RegionOps (Fin 3) (Fin 2) := ⟨exContains, exSplit, exOverlaps⟩

theorem exLawful : LawfulRegion exOps := by
  constructor
  · decide
  · decide
  · decide

/-- The example fresh tree over the whole space with bucket limit 1. -/
def exT0 : NTree (Fin 3) (Fin 2) := NTree.new exOps 0 1

/-- The example tree after inserting point `0`. -/
def exT1 : NTree (Fin 3) (Fin 2) := .Branch 0 [.Bucket 1 [0] 1, .Bucket 2 [] 1]

/-- Result of the splitting insert used in the capacity witness. -/
def exT2 : NTree (Fin 3) (Fin 2) := .Branch 0 [.Bucket 1 [0] 1, .Bucket 2 [1] 1]

theorem exIns1 : NTree.insert exOps 3 exT0 (0 : Fin 2) = .ok exT1 true := rfl

theorem exIns2 :
    NTree.insert exOps 3 (.Bucket 0 [0] 1) (1 : Fin 2) = .ok exT2 true := rfl

theorem exT1_reachable : Reachable exOps 1 exT1 :=
  Reachable.step 3 (Reachable.base 0) exIns1

theorem insert_true_iff_stored_witness :
    (true = true ↔ (0 : Fin 2) ∈ allPoints exT1) ∧ (true = false → exT1 = exT0) :=
  insert_true_iff_stored exOps exLawful 1 (by decide) exT0 (Reachable.base 0)
    3 0 exT1 true exIns1

theorem range_query_yields_filter_witness :
    Yields exOps (NTree.range_query exT1 1)
      ((allPoints exT1).filter (fun x => exOps.contains 1 x)) :=
  range_query_yields_filter exOps exLawful 1 (by decide) exT1 exT1_reachable 1

theorem insert_multiset_witness :
    (allPoints exT2 : Multiset (Fin 2)) = (1 : Fin 2) ::ₘ (allPoints exT1 : Multiset (Fin 2)) :=
  insert_multiset exOps exLawful 1 (by decide) exT1 exT1_reachable 3 1 exT2
    (by rfl)

theorem bucket_capacity_witness :
    capacityOk exT1 = true ∧ exT2.isBranch = true :=
  ⟨(bucket_capacity exOps 1 (by decide)).1 exT1 exT1_reachable,
   (bucket_capacity exOps 1 (by decide)).2 2 0 [0] 1 1 exT2 true (by decide)
     (by decide) (by decide) exIns2⟩

theorem insert_outside_noop_witness :
    NTree.insert exOps 1 (.Bucket 1 [] 1) (1 : Fin 2) =
      .ok (.Bucket 1 [] 1) false :=
  insert_outside_noop exOps (.Bucket 1 [] 1) 1 0 (by decide)

theorem insert_contains_nearby_witness :
    ∃ l, nearby exOps exT1 (0 : Fin 2) = some l ∧ (0 : Fin 2) ∈ l :=
  insert_contains_nearby exOps exLawful 1 (by decide) exT0 (Reachable.base 0)
    3 0 exT1 exIns1 (by decide)

theorem nearby_characterization_witness :
    nearby exOps exT1 (0 : Fin 2) = nearbySpec exOps exT1 0 ∧
    (exOps.contains exT1.region 0 = false → nearby exOps exT1 0 = none) ∧
    (∀ l, nearby exOps exT1 (0 : Fin 2) = some l → l.length ≤ 1) :=
  nearby_characterization exOps 1 (by decide) exT1 exT1_reachable 0

theorem insert_never_panics_witness :
    NTree.insert exOps 0 exT1 (0 : Fin 2) ≠ .panicked :=
  insert_never_panics exOps 1 exT1 exT1_reachable 0 0

theorem nearby_fresh_some_empty_witness :
    nearby exOps (NTree.new exOps 0 5) (0 : Fin 2) = some [] :=
  nearby_fresh_some_empty exOps 0 5 0 (by decide) (by decide)
